import Mathlib

/-!
Verification of the tool-listing query/sort/filter/paginate engine of the
control-ops repository, together with the sort-spec helpers of the React
frontend (frontend/src/pages/Tools.jsx).

Strings are modelled as `List Char` (written via `"...".data`), so that all
definitions evaluate inside the kernel.  Splitting a string on a separator
character, trimming, and lexicographic byte-wise comparison are defined
explicitly below and mirror the semantics of `str.split` / `String.prototype
.split`, `trim`, and ordinary code-point comparison.
-/

namespace ControlOps

/-- Splits a character list at every occurrence of `sep`, mirroring the
semantics of JavaScript `s.split(sep)` and Python `s.split(sep)`:
the result is never empty, and the empty input yields `[[]]`. -/
def splitSep (sep : Char) : List Char → List (List Char)
  | [] => [[]]
  | c :: rest =>
    if c = sep then [] :: splitSep sep rest
    else
      match splitSep sep rest with
      | [] => [[c]]
      | g :: gs => (c :: g) :: gs

/-- Three-way comparison on naturals, used for `created_at` instants and for
the primary-key tiebreaker. -/
def natCmp (a b : Nat) : Ordering :=
  if a < b then .lt else if b < a then .gt else .eq

/-- Three-way comparison on characters by code point. -/
def charCmp (a b : Char) : Ordering :=
  natCmp a.toNat b.toNat

/-- Lexicographic three-way comparison on character lists: the deterministic
byte-wise collation the spec asks implementers to fix. -/
def charsCmp : List Char → List Char → Ordering
  | [], [] => .eq
  | [], _ :: _ => .lt
  | _ :: _, [] => .gt
  | a :: as, b :: bs => (charCmp a b).then (charsCmp as bs)

/-- A comparator is lex-transitive when `≤` (i.e. not `gt`) is transitive and
equality of endpoints forces equality of the two steps. -/
def LexCmp (cmp : α → α → Ordering) : Prop :=
  ∀ a b c, cmp a b ≠ .gt → cmp b c ≠ .gt →
    (cmp a c ≠ .gt ∧ (cmp a c = .eq ↔ (cmp a b = .eq ∧ cmp b c = .eq)))

/-- A comparator is oriented when swapping the arguments swaps the verdict. -/
def SwapCmp (cmp : α → α → Ordering) : Prop :=
  ∀ a b, cmp a b = (cmp b a).swap

theorem natCmp_lex : LexCmp natCmp := by
  intro a b c h1 h2
  unfold natCmp at *
  split_ifs at * <;> simp_all <;> omega

theorem natCmp_swap : SwapCmp natCmp := by
  intro a b
  unfold natCmp
  split_ifs <;> first | (simp_all [Ordering.swap]; omega) | simp_all [Ordering.swap]

theorem charCmp_lex : LexCmp charCmp := by
  intro a b c h1 h2
  exact natCmp_lex a.toNat b.toNat c.toNat h1 h2

theorem charCmp_swap : SwapCmp charCmp := by
  intro a b
  exact natCmp_swap a.toNat b.toNat

theorem Ordering_then_ne_gt {o₁ o₂ : Ordering} (h : o₁.then o₂ ≠ .gt) :
    o₁ ≠ .gt ∧ (o₁ = .eq → o₂ ≠ .gt) := by
  cases o₁ <;> simp_all [Ordering.then]

theorem Ordering_then_eq_iff {o₁ o₂ : Ordering} :
    o₁.then o₂ = .eq ↔ (o₁ = .eq ∧ o₂ = .eq) := by
  cases o₁ <;> simp [Ordering.then]

/-- One step of lexicographic composition, stated on the six `Ordering`
verdicts of a triple of points so that it applies by first-order unification. -/
theorem lexStep {ab1 bc1 ac1 ab2 bc2 ac2 : Ordering}
    (h₁ : ab1 ≠ .gt → bc1 ≠ .gt → (ac1 ≠ .gt ∧ (ac1 = .eq ↔ ab1 = .eq ∧ bc1 = .eq)))
    (h₂ : ab2 ≠ .gt → bc2 ≠ .gt → (ac2 ≠ .gt ∧ (ac2 = .eq ↔ ab2 = .eq ∧ bc2 = .eq)))
    (hab : ab1.then ab2 ≠ .gt) (hbc : bc1.then bc2 ≠ .gt) :
    ac1.then ac2 ≠ .gt ∧
      (ac1.then ac2 = .eq ↔ (ab1.then ab2 = .eq ∧ bc1.then bc2 = .eq)) := by
  obtain ⟨hab₁, hab₂⟩ := Ordering_then_ne_gt hab
  obtain ⟨hbc₁, hbc₂⟩ := Ordering_then_ne_gt hbc
  obtain ⟨hac₁, hiff⟩ := h₁ hab₁ hbc₁
  by_cases heq : ac1 = .eq
  · obtain ⟨he₁, he₂⟩ := hiff.mp heq
    obtain ⟨hac₂, hiff₂⟩ := h₂ (hab₂ he₁) (hbc₂ he₂)
    constructor
    · simp only [heq, Ordering.then]
      exact hac₂
    · simp only [Ordering_then_eq_iff, heq, he₁, he₂, true_and]
      exact hiff₂
  · constructor
    · cases hc : ac1 <;> simp_all [Ordering.then]
    · simp only [Ordering_then_eq_iff]
      constructor
      · rintro ⟨h, -⟩
        exact absurd h heq
      · rintro ⟨⟨ha, -⟩, ⟨hb, -⟩⟩
        exact absurd (hiff.mpr ⟨ha, hb⟩) heq

theorem Ordering_then_swap (o₁ o₂ : Ordering) :
    (o₁.then o₂).swap = o₁.swap.then o₂.swap := by
  cases o₁ <;> cases o₂ <;> rfl

theorem charsCmp_lex : LexCmp charsCmp := by
  intro a
  induction a with
  | nil =>
    intro b c h1 h2
    cases b <;> cases c <;> simp_all [charsCmp]
  | cons x xs ih =>
    intro b c h1 h2
    cases b with
    | nil => simp [charsCmp] at h1
    | cons y ys =>
      cases c with
      | nil => simp [charsCmp] at h2
      | cons z zs =>
        simp only [charsCmp] at h1 h2 ⊢
        exact lexStep (fun hu hv => charCmp_lex x y z hu hv)
          (fun hu hv => ih ys zs hu hv) h1 h2

theorem charsCmp_swap : SwapCmp charsCmp := by
  intro a
  induction a with
  | nil => intro b; cases b <;> rfl
  | cons x xs ih =>
    intro b
    cases b with
    | nil => rfl
    | cons y ys =>
      simp only [charsCmp, Ordering_then_swap, charCmp_swap x y, ih ys]

/-- Insertion of an element into a list, keeping everything that is `le`-below
it in front.  Used to implement the engine's deterministic sort. -/
def insertLe (le : α → α → Bool) (x : α) : List α → List α
  | [] => [x]
  | y :: ys => if le x y then x :: y :: ys else y :: insertLe le x ys

/-- Deterministic insertion sort with respect to a boolean comparator. -/
def sortLe (le : α → α → Bool) : List α → List α
  | [] => []
  | x :: xs => insertLe le x (sortLe le xs)

theorem mem_insertLe (le : α → α → Bool) (x : α) :
    ∀ l z, z ∈ insertLe le x l ↔ z = x ∨ z ∈ l := by
  intro l
  induction l with
  | nil => intro z; simp [insertLe]
  | cons y ys ih =>
    intro z
    simp only [insertLe]
    split
    · simp [List.mem_cons]
    · simp only [List.mem_cons, ih z]
      tauto

theorem length_insertLe (le : α → α → Bool) (x : α) :
    ∀ l, (insertLe le x l).length = l.length + 1 := by
  intro l
  induction l with
  | nil => rfl
  | cons y ys ih =>
    simp only [insertLe]
    split <;> simp [ih]

theorem length_sortLe (le : α → α → Bool) :
    ∀ l : List α, (sortLe le l).length = l.length := by
  intro l
  induction l with
  | nil => rfl
  | cons x xs ih => simp [sortLe, length_insertLe, ih]

theorem pairwise_insertLe (le : α → α → Bool)
    (total : ∀ a b, le a b = true ∨ le b a = true)
    (trans : ∀ a b c, le a b = true → le b c = true → le a c = true)
    (x : α) :
    ∀ l, l.Pairwise (fun a b => le a b = true) →
      (insertLe le x l).Pairwise (fun a b => le a b = true) := by
  intro l
  induction l with
  | nil => intro _; simp [insertLe]
  | cons y ys ih =>
    intro hp
    rw [List.pairwise_cons] at hp
    obtain ⟨hy, hys⟩ := hp
    simp only [insertLe]
    split
    · rename_i hxy
      rw [List.pairwise_cons]
      refine ⟨?_, List.pairwise_cons.mpr ⟨hy, hys⟩⟩
      intro z hz
      rcases List.mem_cons.mp hz with rfl | hz'
      · exact hxy
      · exact trans x y z hxy (hy z hz')
    · rw [List.pairwise_cons]
      refine ⟨?_, ih hys⟩
      intro z hz
      rcases (mem_insertLe le x ys z).mp hz with rfl | hz'
      · rename_i hxy
        rcases total z y with h | h
        · exact absurd h (by simp_all)
        · exact h
      · exact hy z hz'

theorem pairwise_sortLe (le : α → α → Bool)
    (total : ∀ a b, le a b = true ∨ le b a = true)
    (trans : ∀ a b c, le a b = true → le b c = true → le a c = true) :
    ∀ l : List α, (sortLe le l).Pairwise (fun a b => le a b = true) := by
  intro l
  induction l with
  | nil => simp [sortLe]
  | cons x xs ih => exact pairwise_insertLe le total trans x _ ih

/-- Modelled from the spec: the sortable-field whitelist of the backend
ToolQueryEngine (spec §3/§4.1: field ∈ {name, category, created_at}); the
backend FastAPI application is not under src/, only its entrypoint script is. -/
inductive SortField where
  | name
  | category
  | createdAt
deriving DecidableEq, Repr

/-- Modelled from the spec: a sort direction, `asc` or `desc` (spec §3). -/
inductive SortDir where
  | asc
  | desc
deriving DecidableEq, Repr

/-- Modelled from the spec: the client-input failure modes of the query
engine (spec §4.1 "Failure modes" and §7), all surfaced as one HTTP 422
client error. -/
inductive QueryError where
  | invalidSortField (f : List Char)
  | invalidSortDir (d : List Char)
  | malformedSortToken (t : List Char)
  | duplicateSortField
  | tooManySortFields
  | invalidLimit (l : Int)
  | invalidOffset (o : Int)
deriving DecidableEq, Repr

/-- Modelled from the spec: every validation failure is reported as an
HTTP 422 client error (spec §6 "Validation failure response: HTTP 422"). -/
def httpStatus : QueryError → Nat
  | _ => 422

/-- Modelled from the spec: a tool record (spec §3), with strings as char
lists and `created_at` as a comparable instant. -/
structure Tool where
  id : Nat
  name : List Char
  description : List Char
  url : List Char
  category : List Char
  tags : List (List Char)
  created_at : Nat
deriving DecidableEq, Repr

/-- Modelled from the spec: the page shape returned by the listing endpoint
(spec §6: `{ items, total, limit, offset }`). -/
structure Page where
  items : List Tool
  total : Nat
  limit : Nat
  offset : Nat
deriving DecidableEq, Repr

/-- Modelled from the spec: a validated query request (spec §3 QueryRequest)
after parsing and normalization of the raw HTTP parameters. -/
structure QueryRequest where
  category : Option (List Char)
  tag : Option (List Char)
  q : Option (List Char)
  limit : Nat
  offset : Nat
  spec : List (SortField × SortDir)
deriving DecidableEq, Repr

/-- Modelled from the spec: the raw HTTP query parameters of the listing
endpoint (spec §6), including the legacy `sort_by`/`sort_dir` pair. -/
structure RawQuery where
  category : Option (List Char)
  tag : Option (List Char)
  q : Option (List Char)
  limit : Option Int
  offset : Option Int
  sort : Option (List Char)
  sort_by : Option (List Char)
  sort_dir : Option (List Char)
deriving DecidableEq, Repr

/-- Modelled from the spec: recognizing a whitelisted field name (spec §4.1
"Each field must be in the allowed set {name, category, created_at}"). -/
def parseField (f : List Char) : Option SortField :=
  if f = "name".data then some .name
  else if f = "category".data then some .category
  else if f = "created_at".data then some .createdAt
  else none

/-- Modelled from the spec: recognizing an explicit direction (spec §4.1
"Each direction must be exactly `asc` or `desc` ... no silent default"). -/
def parseDir (d : List Char) : Option SortDir :=
  if d = "asc".data then some .asc
  else if d = "desc".data then some .desc
  else none

/-- Wire spelling of a whitelisted field, the left inverse of `parseField`. -/
def fieldName : SortField → List Char
  | .name => "name".data
  | .category => "category".data
  | .createdAt => "created_at".data

/-- Modelled from the spec: validation of one `field:direction` token
(spec §4.1); unknown field, bad direction, or a malformed token is an error. -/
def parseToken (t : List Char) : Except QueryError (SortField × SortDir) :=
  match splitSep ':' t with
  | [f, d] =>
    match parseField f with
    | none => .error (.invalidSortField f)
    | some F =>
      match parseDir d with
      | none => .error (.invalidSortDir d)
      | some D => .ok (F, D)
  | _ => .error (.malformedSortToken t)

/-- Modelled from the spec: validation of the comma-separated token list,
failing on the first bad token (spec §4.1 "fails fast"). -/
def parseTokens : List (List Char) → Except QueryError (List (SortField × SortDir))
  | [] => .ok []
  | t :: ts =>
    match parseToken t with
    | .error e => .error e
    | .ok p =>
      match parseTokens ts with
      | .error e => .error e
      | .ok ps => .ok (p :: ps)

/-- Modelled from the spec: full validation of the `sort` string (spec §4.1):
parse all tokens, reject duplicate fields, reject more than 3 tokens; the
request is rejected wholesale, never repaired. -/
def parseSort (s : List Char) : Except QueryError (List (SortField × SortDir)) :=
  match parseTokens (splitSep ',' s) with
  | .error e => .error e
  | .ok spec =>
    if ¬ (spec.map Prod.fst).Nodup then .error .duplicateSortField
    else if 3 < spec.length then .error .tooManySortFields
    else .ok spec

/-- Modelled from the spec: sort-spec resolution at the HTTP boundary
(spec §6): `sort` if present is parsed; otherwise the legacy
`sort_by`/`sort_dir` pair is translated into a single-element SortSpec;
otherwise the default `created_at desc` applies (spec §3). -/
def resolveSort (sort sort_by sort_dir : Option (List Char)) :
    Except QueryError (List (SortField × SortDir)) :=
  match sort with
  | some s => parseSort s
  | none =>
    match sort_by with
    | some f =>
      match parseField f with
      | none => .error (.invalidSortField f)
      | some F =>
        let d := sort_dir.getD "asc".data
        match parseDir d with
        | none => .error (.invalidSortDir d)
        | some D => .ok [(F, D)]
    | none => .ok [(.createdAt, .desc)]

/-- Modelled from the spec: `limit` defaults to 20, must be non-negative and
at most the configured maximum 100, otherwise the request is rejected
(spec §4.1, §6). -/
def resolveLimit : Option Int → Except QueryError Nat
  | none => .ok 20
  | some l =>
    if l < 0 then .error (.invalidLimit l)
    else if 100 < l then .error (.invalidLimit l)
    else .ok l.toNat

/-- Modelled from the spec: `offset` defaults to 0 and must be non-negative
(spec §4.1, §6). -/
def resolveOffset : Option Int → Except QueryError Nat
  | none => .ok 0
  | some o =>
    if o < 0 then .error (.invalidOffset o)
    else .ok o.toNat

/-- Modelled from the spec: combined pagination validation (spec §4.1). -/
def resolvePagination (limit offset : Option Int) : Except QueryError (Nat × Nat) :=
  match resolveLimit limit with
  | .error e => .error e
  | .ok l =>
    match resolveOffset offset with
    | .error e => .error e
    | .ok o => .ok (l, o)

/-- Modelled from the spec: comparison of two tools under one
(field, direction) pair (spec §4.1 "Sorting"); `desc` reverses the
byte-wise/instant order. -/
def keyCmp (k : SortField × SortDir) (a b : Tool) : Ordering :=
  match k with
  | (.name, .asc) => charsCmp a.name b.name
  | (.name, .desc) => charsCmp b.name a.name
  | (.category, .asc) => charsCmp a.category b.category
  | (.category, .desc) => charsCmp b.category a.category
  | (.createdAt, .asc) => natCmp a.created_at b.created_at
  | (.createdAt, .desc) => natCmp b.created_at a.created_at

/-- Modelled from the spec: the composite comparator (spec §4.1 "Sorting"):
compare by the first key, break ties with the later keys, and break the
remaining ties deterministically by the primary key `id`. -/
def specCmp : List (SortField × SortDir) → Tool → Tool → Ordering
  | [], a, b => natCmp a.id b.id
  | k :: ks, a, b => (keyCmp k a b).then (specCmp ks a b)

/-- Boolean "not greater" form of the composite comparator, used to sort. -/
def specLE (spec : List (SortField × SortDir)) (a b : Tool) : Bool :=
  specCmp spec a b ≠ .gt

/-- Lower-cases a character list, for the case-insensitive free-text filter. -/
def lowered (s : List Char) : List Char :=
  s.map Char.toLower

/-- Tests whether `p` occurs at the start of `s`. -/
def leadsWith : List Char → List Char → Bool
  | [], _ => true
  | _ :: _, [] => false
  | a :: as, b :: bs => a = b && leadsWith as bs

/-- Tests whether `n` occurs as a contiguous run inside `s` (substring). -/
def occursIn (n : List Char) : List Char → Bool
  | [] => n.isEmpty
  | c :: rest => leadsWith n (c :: rest) || occursIn n rest

/-- Modelled from the spec: the ANDed filter predicate (spec §4.1
"Filtering"): exact category match, exact tag membership, and
case-insensitive substring match of `q` against name/description/category. -/
def toolMatches (category tag q : Option (List Char)) (t : Tool) : Bool :=
  (match category with
   | none => true
   | some c => t.category = c) &&
  (match tag with
   | none => true
   | some tg => t.tags.contains tg) &&
  (match q with
   | none => true
   | some qs =>
     occursIn (lowered qs) (lowered t.name) ||
     occursIn (lowered qs) (lowered t.description) ||
     occursIn (lowered qs) (lowered t.category))

/-- Modelled from the spec: the core engine (spec §4.1): filter, sort under
the composite comparator, slice `[offset, offset+limit)`, and report the
pre-slice match count as `total` (spec "Pagination"). -/
def engineQuery (req : QueryRequest) (tools : List Tool) : Page :=
  let matched := tools.filter (toolMatches req.category req.tag req.q)
  let sorted := sortLe (specLE req.spec) matched
  { items := (sorted.drop req.offset).take req.limit
    total := matched.length
    limit := req.limit
    offset := req.offset }

/-- Modelled from the spec: the listing endpoint (spec §4.1/§6): validate the
sort spec and the pagination parameters, then run the engine; any validation
failure rejects the whole request with a client error (HTTP 422). -/
def handleQuery (raw : RawQuery) (tools : List Tool) : Except QueryError Page :=
  match resolveSort raw.sort raw.sort_by raw.sort_dir with
  | .error e => .error e
  | .ok spec =>
    match resolvePagination raw.limit raw.offset with
    | .error e => .error e
    | .ok lo => .ok (engineQuery ⟨raw.category, raw.tag, raw.q, lo.1, lo.2, spec⟩ tools)

/-- Field part of each comma-separated token of a raw sort string: the text
before the first `:` of the token. -/
def tokenFieldNames (s : List Char) : List (List Char) :=
  (splitSep ',' s).map (fun t => (splitSep ':' t).headD [])

theorem keyCmp_lex (k : SortField × SortDir) (a b c : Tool) :
    keyCmp k a b ≠ .gt → keyCmp k b c ≠ .gt →
      (keyCmp k a c ≠ .gt ∧
        (keyCmp k a c = .eq ↔ (keyCmp k a b = .eq ∧ keyCmp k b c = .eq))) := by
  obtain ⟨f, d⟩ := k
  cases f <;> cases d <;> intro hab hbc <;> simp only [keyCmp] at *
  · exact charsCmp_lex _ _ _ hab hbc
  · exact ⟨(charsCmp_lex _ _ _ hbc hab).1, (charsCmp_lex _ _ _ hbc hab).2.trans and_comm⟩
  · exact charsCmp_lex _ _ _ hab hbc
  · exact ⟨(charsCmp_lex _ _ _ hbc hab).1, (charsCmp_lex _ _ _ hbc hab).2.trans and_comm⟩
  · exact natCmp_lex _ _ _ hab hbc
  · exact ⟨(natCmp_lex _ _ _ hbc hab).1, (natCmp_lex _ _ _ hbc hab).2.trans and_comm⟩

theorem keyCmp_swap (k : SortField × SortDir) (a b : Tool) :
    keyCmp k a b = (keyCmp k b a).swap := by
  obtain ⟨f, d⟩ := k
  cases f <;> cases d <;>
    first
    | exact charsCmp_swap _ _
    | exact natCmp_swap _ _

theorem specCmp_lex (spec : List (SortField × SortDir)) : LexCmp (specCmp spec) := by
  induction spec with
  | nil =>
    intro a b c hab hbc
    exact natCmp_lex _ _ _ hab hbc
  | cons k ks ih =>
    intro a b c hab hbc
    simp only [specCmp] at *
    exact lexStep (keyCmp_lex k a b c) (ih a b c) hab hbc

theorem specCmp_swap (spec : List (SortField × SortDir)) (a b : Tool) :
    specCmp spec a b = (specCmp spec b a).swap := by
  induction spec with
  | nil => exact natCmp_swap _ _
  | cons k ks ih =>
    simp only [specCmp]
    rw [keyCmp_swap k a b, ih, Ordering_then_swap]

theorem specLE_total (spec : List (SortField × SortDir)) (a b : Tool) :
    specLE spec a b = true ∨ specLE spec b a = true := by
  simp only [specLE, decide_eq_true_eq]
  by_cases h : specCmp spec a b = .gt
  · right
    have hsw := specCmp_swap spec a b
    rw [h] at hsw
    cases hc : specCmp spec b a
    · decide
    · decide
    · rw [hc] at hsw
      exact absurd hsw (by decide)
  · left
    exact h

theorem specLE_trans (spec : List (SortField × SortDir)) (a b c : Tool) :
    specLE spec a b = true → specLE spec b c = true → specLE spec a c = true := by
  simp only [specLE, decide_eq_true_eq]
  intro h1 h2
  exact (specCmp_lex spec a b c h1 h2).1

theorem sorted_engine_items (req : QueryRequest) (tools : List Tool) :
    (engineQuery req tools).items.Pairwise
      (fun a b => specCmp req.spec a b ≠ .gt) := by
  have hp : (sortLe (specLE req.spec)
      (tools.filter (toolMatches req.category req.tag req.q))).Pairwise
        (fun a b => specLE req.spec a b = true) :=
    pairwise_sortLe _ (specLE_total req.spec)
      (fun a b c => specLE_trans req.spec a b c) _
  have hsub :
      (engineQuery req tools).items.Sublist
        (sortLe (specLE req.spec)
          (tools.filter (toolMatches req.category req.tag req.q))) := by
    simp only [engineQuery]
    exact (List.take_sublist _ _).trans (List.drop_sublist _ _)
  have := hp.sublist hsub
  refine this.imp ?_
  intro a b h
  simpa [specLE, decide_eq_true_eq] using h

theorem parseField_eq_fieldName {f : List Char} {F : SortField}
    (h : parseField f = some F) : f = fieldName F := by
  unfold parseField at h
  split_ifs at h with h1 h2 h3
  · cases h
    exact h1
  · cases h
    exact h2
  · cases h
    exact h3

theorem fieldName_inj : Function.Injective fieldName := by
  intro a b h
  cases a <;> cases b <;> first | rfl | exact absurd h (by decide)

theorem parseToken_shape {t : List Char} {p : SortField × SortDir}
    (h : parseToken t = .ok p) :
    ∃ fs ds, splitSep ':' t = [fs, ds] ∧
      parseField fs = some p.1 ∧ parseDir ds = some p.2 := by
  unfold parseToken at h
  split at h
  · rename_i fs ds heq
    refine ⟨fs, ds, heq, ?_⟩
    cases hf : parseField fs with
    | none => rw [hf] at h; cases h
    | some F =>
      rw [hf] at h
      cases hd : parseDir ds with
      | none => rw [hd] at h; cases h
      | some D =>
        rw [hd] at h
        cases h
        exact ⟨rfl, rfl⟩
  · cases h

theorem parseTokens_length :
    ∀ (toks : List (List Char)) (spec : List (SortField × SortDir)),
      parseTokens toks = .ok spec → spec.length = toks.length := by
  intro toks
  induction toks with
  | nil =>
    intro spec h
    simp only [parseTokens] at h
    cases h
    rfl
  | cons t ts ih =>
    intro spec h
    simp only [parseTokens] at h
    cases hp : parseToken t with
    | error e => rw [hp] at h; cases h
    | ok p =>
      rw [hp] at h
      cases hr : parseTokens ts with
      | error e => rw [hr] at h; cases h
      | ok ps =>
        rw [hr] at h
        cases h
        simp [ih ps hr]

theorem parseTokens_fieldNames :
    ∀ (toks : List (List Char)) (spec : List (SortField × SortDir)),
      parseTokens toks = .ok spec →
        toks.map (fun t => (splitSep ':' t).headD []) =
          spec.map (fun p => fieldName p.1) := by
  intro toks
  induction toks with
  | nil =>
    intro spec h
    simp only [parseTokens] at h
    cases h
    rfl
  | cons t ts ih =>
    intro spec h
    simp only [parseTokens] at h
    cases hp : parseToken t with
    | error e => rw [hp] at h; cases h
    | ok p =>
      rw [hp] at h
      cases hr : parseTokens ts with
      | error e => rw [hr] at h; cases h
      | ok ps =>
        rw [hr] at h
        cases h
        obtain ⟨fs, ds, hsp, hf, -⟩ := parseToken_shape hp
        simp only [List.map_cons, hsp, ih ps hr, List.headD_cons]
        rw [parseField_eq_fieldName hf]

theorem parseTokens_error_of_mem {toks : List (List Char)} {tok : List Char}
    (htok : tok ∈ toks) {e₀ : QueryError} (he : parseToken tok = .error e₀) :
    ∃ e, parseTokens toks = .error e := by
  induction toks with
  | nil => cases htok
  | cons t ts ih =>
    rcases List.mem_cons.mp htok with rfl | hmem
    · exact ⟨e₀, by simp [parseTokens, he]⟩
    · simp only [parseTokens]
      cases hp : parseToken t with
      | error e => exact ⟨e, rfl⟩
      | ok p =>
        obtain ⟨e, hr⟩ := ih hmem
        rw [hr]
        exact ⟨e, rfl⟩

theorem resolvePagination_ok_of {limit offset : Option Int} {l o : Nat}
    (hl : resolveLimit limit = .ok l) (ho : resolveOffset offset = .ok o) :
    resolvePagination limit offset = .ok (l, o) := by
  simp only [resolvePagination, hl, ho]

theorem resolvePagination_ok {l o : Option Int} {lo : Nat × Nat}
    (h : resolvePagination l o = .ok lo) :
    resolveLimit l = .ok lo.1 ∧ resolveOffset o = .ok lo.2 := by
  unfold resolvePagination at h
  cases hl : resolveLimit l with
  | error e => rw [hl] at h; cases h
  | ok a =>
    rw [hl] at h
    cases ho : resolveOffset o with
    | error e => rw [ho] at h; cases h
    | ok b =>
      rw [ho] at h
      cases h
      exact ⟨rfl, rfl⟩

theorem handleQuery_ok {raw : RawQuery} {tools : List Tool} {page : Page}
    (h : handleQuery raw tools = .ok page) :
    ∃ spec l o,
      resolveSort raw.sort raw.sort_by raw.sort_dir = .ok spec ∧
      resolveLimit raw.limit = .ok l ∧
      resolveOffset raw.offset = .ok o ∧
      page = engineQuery ⟨raw.category, raw.tag, raw.q, l, o, spec⟩ tools := by
  unfold handleQuery at h
  cases hs : resolveSort raw.sort raw.sort_by raw.sort_dir with
  | error e => rw [hs] at h; cases h
  | ok spec =>
    rw [hs] at h
    cases hp : resolvePagination raw.limit raw.offset with
    | error e => rw [hp] at h; cases h
    | ok lo =>
      rw [hp] at h
      cases h
      obtain ⟨hl, ho⟩ := resolvePagination_ok hp
      exact ⟨spec, lo.1, lo.2, rfl, hl, ho, rfl⟩

theorem handleQuery_sort_error {raw : RawQuery} {tools : List Tool} {e : QueryError}
    (h : resolveSort raw.sort raw.sort_by raw.sort_dir = .error e) :
    handleQuery raw tools = .error e := by
  unfold handleQuery
  rw [h]

theorem parseSort_error_of_parseTokens {s : List Char} {e : QueryError}
    (h : parseTokens (splitSep ',' s) = .error e) : parseSort s = .error e := by
  unfold parseSort
  rw [h]

theorem parseSort_ok_shape {s : List Char} {spec : List (SortField × SortDir)}
    (hp : parseTokens (splitSep ',' s) = .ok spec) :
    parseSort s =
      (if ¬ (spec.map Prod.fst).Nodup then .error .duplicateSortField
       else if 3 < spec.length then .error .tooManySortFields
       else .ok spec) := by
  unfold parseSort
  rw [hp]

namespace Frontend

/-- One sort entry of the frontend sort spec, `{ by, dir }` in Tools.jsx
(the JS field `by` is spelled `by_` here because `by` is a Lean keyword). -/
structure SortEntry where
  by_ : List Char
  dir : List Char
deriving DecidableEq, Repr

/-- Direction coercion inside `normalizeSpec` (Tools.jsx line 72):
`s.dir === 'asc' ? 'asc' : 'desc'`. -/
def normEntry (e : SortEntry) : SortEntry :=
  ⟨e.by_, if e.dir = "asc".data then "asc".data else "desc".data⟩

/-- Body of the loop of `normalizeSpec` (Tools.jsx lines 66-73): skip entries
with a falsy `by` (modelled as the empty string), skip fields already seen,
and coerce the direction of each kept entry. -/
def cleanSpec (seen : List (List Char)) : List SortEntry → List SortEntry
  | [] => []
  | e :: rest =>
    if e.by_ = [] then cleanSpec seen rest
    else if e.by_ ∈ seen then cleanSpec seen rest
    else normEntry e :: cleanSpec (e.by_ :: seen) rest

/-- Model of `normalizeSpec` (Tools.jsx lines 65-75): deduplicate by field,
coerce directions, and truncate to the first 3 entries. -/
def normalizeSpec (spec : List SortEntry) : List SortEntry :=
  (cleanSpec [] spec).take 3

/-- Model of `defaultDir` (Tools.jsx lines 61-63). -/
def defaultDir (field : List Char) : List Char :=
  if field = "created_at".data then "desc".data else "asc".data

/-- One entry of `SORT_PRESETS` (Tools.jsx lines 48-55). -/
structure SortPreset where
  key : List Char
  spec : List SortEntry
deriving DecidableEq, Repr

/-- Model of `SORT_PRESETS` (Tools.jsx lines 48-55). -/
def SORT_PRESETS : List SortPreset :=
  [⟨"created_desc".data, [⟨"created_at".data, "desc".data⟩]⟩,
   ⟨"created_asc".data, [⟨"created_at".data, "asc".data⟩]⟩,
   ⟨"name_asc".data, [⟨"name".data, "asc".data⟩]⟩,
   ⟨"name_desc".data, [⟨"name".data, "desc".data⟩]⟩,
   ⟨"cat_name".data, [⟨"category".data, "asc".data⟩, ⟨"name".data, "asc".data⟩]⟩,
   ⟨"cat_created".data, [⟨"category".data, "asc".data⟩, ⟨"created_at".data, "desc".data⟩]⟩]

/-- Model of the sort spec produced by `setPreset` (Tools.jsx lines 115-119):
the spec of the preset found by key (falling back to `SORT_PRESETS[0]`),
normalized. -/
def setPreset (key : List Char) : List SortEntry :=
  normalizeSpec
    (((SORT_PRESETS.find? (fun p => p.key == key)).getD
        (SORT_PRESETS.headD ⟨[], []⟩)).spec)

/-- Direction toggle used by `toggleSort` on the primary field
(Tools.jsx line 145). -/
def toggleDir (d : List Char) : List Char :=
  if d = "asc".data then "desc".data else "asc".data

/-- The `splice`/`unshift` move of `toggleSort` (Tools.jsx lines 148-151):
the entry at index `i` is moved to the front. -/
def moveToFront (l : List SortEntry) (i : Nat) : List SortEntry :=
  match l[i]? with
  | some x => x :: l.eraseIdx i
  | none => l

/-- Model of the sort spec produced by `toggleSort` (Tools.jsx lines
139-156): toggle the direction of the primary field, promote a non-primary
field to the front, or prepend a new primary with its default direction. -/
def toggleSort (field : List Char) (prev : List SortEntry) : List SortEntry :=
  match prev.findIdx? (fun s => s.by_ == field) with
  | some 0 =>
    match prev with
    | e :: rest => normalizeSpec (⟨e.by_, toggleDir e.dir⟩ :: rest)
    | [] => normalizeSpec []
  | some (i + 1) => normalizeSpec (moveToFront prev (i + 1))
  | none => normalizeSpec (⟨field, defaultDir field⟩ :: prev)

/-- Model of the sort spec produced by `setSortBuilder` (Tools.jsx lines
125-137): primary always, secondary and tertiary only when non-empty and
distinct from the earlier slots; a falsy direction (empty string) falls back
to the field's default direction. -/
def setSortBuilder (pBy pDir sBy sDir tBy tDir : List Char) : List SortEntry :=
  let base := [SortEntry.mk pBy (if pDir = [] then defaultDir pBy else pDir)]
  let withS :=
    if sBy ≠ [] ∧ sBy ≠ pBy then
      base ++ [⟨sBy, if sDir = [] then defaultDir sBy else sDir⟩]
    else base
  let withT :=
    if tBy ≠ [] ∧ tBy ≠ pBy ∧ tBy ≠ sBy then
      withS ++ [⟨tBy, if tDir = [] then defaultDir tBy else tDir⟩]
    else withS
  normalizeSpec withT

/-- Model of `reorder` (Tools.jsx lines 83-88): remove the entry at `f` and
re-insert it at `t` (the UI only calls it with valid badge indices). -/
def reorder (l : List SortEntry) (f t : Nat) : List SortEntry :=
  match l[f]? with
  | some x => (l.eraseIdx f).insertIdx t x
  | none => l

/-- Model of the sort spec produced by `onBadgeDrop` (Tools.jsx lines
184-191): no drag in progress or dropping on itself leaves the spec alone;
otherwise the reordered spec is normalized. -/
def onBadgeDrop (prev : List SortEntry) (dragIndex : Option Nat) (i : Nat) :
    List SortEntry :=
  match dragIndex with
  | none => prev
  | some d => if d = i then prev else normalizeSpec (reorder prev d i)

/-- The SortSpec invariant of the spec (§3 "Invariants"): at most 3 entries,
no field repeats, and every direction is `asc` or `desc`. -/
def specInvariant (spec : List SortEntry) : Prop :=
  spec.length ≤ 3 ∧ (spec.map SortEntry.by_).Nodup ∧
    ∀ e ∈ spec, e.dir = "asc".data ∨ e.dir = "desc".data

/-- The full SortSpec well-formedness of the data model (spec §3): the
invariant above together with fields drawn from the sortable whitelist. -/
def SortSpecWF (spec : List SortEntry) : Prop :=
  spec.length ≤ 3 ∧ (spec.map SortEntry.by_).Nodup ∧
    ∀ e ∈ spec,
      e.by_ ∈ ["name".data, "category".data, "created_at".data] ∧
      (e.dir = "asc".data ∨ e.dir = "desc".data)

/-- JavaScript whitespace test used by `trim`, modelled by
`Char.isWhitespace`. -/
def wsp (c : Char) : Bool :=
  c.isWhitespace

/-- Model of `String.prototype.trim`: drop whitespace from both ends. -/
def trimChars (s : List Char) : List Char :=
  ((s.dropWhile wsp).reverse.dropWhile wsp).reverse

/-- First-occurrence deduplication, the order-preserving semantics of
`Array.from(new Set(list))`. -/
def dedupKeepFirst (seen : List (List Char)) : List (List Char) → List (List Char)
  | [] => []
  | t :: ts =>
    if t ∈ seen then dedupKeepFirst seen ts
    else t :: dedupKeepFirst (t :: seen) ts

/-- Model of `parseTags` (Tools.jsx lines 5-14): split on commas, trim each
entry, drop empties (`filter(Boolean)`), and keep the first occurrence of
each distinct tag. -/
def parseTags (text : List Char) : List (List Char) :=
  dedupKeepFirst [] (((splitSep ',' text).map trimChars).filter (fun t => !t.isEmpty))

theorem cleanSpec_by_nodup :
    ∀ (s : List SortEntry) (seen : List (List Char)),
      ((cleanSpec seen s).map SortEntry.by_).Nodup ∧
        ∀ b ∈ (cleanSpec seen s).map SortEntry.by_, b ∉ seen := by
  intro s
  induction s with
  | nil => intro seen; exact ⟨List.nodup_nil, by simp [cleanSpec]⟩
  | cons e rest ih =>
    intro seen
    simp only [cleanSpec]
    split_ifs with h1 h2
    · exact ih seen
    · exact ih seen
    · obtain ⟨hnd, hseen⟩ := ih (e.by_ :: seen)
      constructor
      · simp only [List.map_cons]
        rw [List.nodup_cons]
        refine ⟨?_, hnd⟩
        intro hmem
        exact (hseen _ hmem) (List.mem_cons_self _ _)
      · intro b hb
        simp only [List.map_cons, List.mem_cons] at hb
        rcases hb with rfl | hb
        · exact h2
        · intro hmem
          exact (hseen b hb) (List.mem_cons_of_mem _ hmem)

theorem cleanSpec_entries :
    ∀ (s : List SortEntry) (seen : List (List Char)) (e : SortEntry),
      e ∈ cleanSpec seen s →
        e.by_ ≠ [] ∧ (e.dir = "asc".data ∨ e.dir = "desc".data) := by
  intro s
  induction s with
  | nil => intro seen e h; cases h
  | cons x rest ih =>
    intro seen e h
    simp only [cleanSpec] at h
    split_ifs at h with h1 h2
    · exact ih seen e h
    · exact ih seen e h
    · rcases List.mem_cons.mp h with rfl | h
      · refine ⟨h1, ?_⟩
        simp only [normEntry]
        split_ifs
        · left; rfl
        · right; rfl
      · exact ih _ e h

theorem cleanSpec_id :
    ∀ (s : List SortEntry) (seen : List (List Char)),
      (s.map SortEntry.by_).Nodup →
      (∀ e ∈ s, e.by_ ≠ [] ∧ e.by_ ∉ seen ∧
        (e.dir = "asc".data ∨ e.dir = "desc".data)) →
      cleanSpec seen s = s := by
  intro s
  induction s with
  | nil => intro seen _ _; rfl
  | cons e rest ih =>
    intro seen hnd hall
    obtain ⟨h1, h2, h3⟩ := hall e (List.mem_cons_self e rest)
    simp only [cleanSpec]
    rw [if_neg h1, if_neg h2]
    rw [List.map_cons, List.nodup_cons] at hnd
    have hnd' := hnd
    congr 1
    · rcases h3 with hd | hd
      · rw [show normEntry e = ⟨e.by_, "asc".data⟩ by simp [normEntry, hd], ← hd]
      · have hne : e.dir ≠ "asc".data := by
          rw [hd]
          decide
        rw [show normEntry e = ⟨e.by_, "desc".data⟩ by simp [normEntry, hne], ← hd]
    · apply ih (e.by_ :: seen) hnd'.2
      intro x hx
      obtain ⟨x1, x2, x3⟩ := hall x (List.mem_cons_of_mem _ hx)
      refine ⟨x1, ?_, x3⟩
      intro hmem
      rcases List.mem_cons.mp hmem with heq | hmem'
      · exact hnd'.1 (heq ▸ List.mem_map_of_mem SortEntry.by_ hx)
      · exact x2 hmem'

theorem normalizeSpec_invariant (s : List SortEntry) :
    specInvariant (normalizeSpec s) := by
  refine ⟨?_, ?_, ?_⟩
  · rw [normalizeSpec, List.length_take]
    exact min_le_left _ _
  · exact ((cleanSpec_by_nodup s []).1).sublist
      ((List.take_sublist _ _).map SortEntry.by_)
  · intro e he
    exact (cleanSpec_entries s [] e (List.mem_of_mem_take he)).2

theorem normalizeSpec_fixed (s : List SortEntry)
    (h1 : s.length ≤ 3) (h2 : (s.map SortEntry.by_).Nodup)
    (h3 : ∀ e ∈ s, e.by_ ≠ [] ∧ (e.dir = "asc".data ∨ e.dir = "desc".data)) :
    normalizeSpec s = s := by
  rw [normalizeSpec,
    cleanSpec_id s [] h2 (fun e he => ⟨(h3 e he).1, by simp, (h3 e he).2⟩)]
  exact List.take_of_length_le h1

theorem dedupKeepFirst_nodup_mem :
    ∀ (l seen : List (List Char)),
      (dedupKeepFirst seen l).Nodup ∧
        ∀ t, t ∈ dedupKeepFirst seen l ↔ (t ∈ l ∧ t ∉ seen) := by
  intro l
  induction l with
  | nil => intro seen; exact ⟨List.nodup_nil, by simp [dedupKeepFirst]⟩
  | cons x xs ih =>
    intro seen
    simp only [dedupKeepFirst]
    split_ifs with hx
    · obtain ⟨hnd, hmem⟩ := ih seen
      refine ⟨hnd, ?_⟩
      intro t
      rw [hmem t]
      constructor
      · rintro ⟨ht, hs⟩
        exact ⟨List.mem_cons_of_mem _ ht, hs⟩
      · rintro ⟨ht, hs⟩
        rcases List.mem_cons.mp ht with rfl | ht'
        · exact absurd hx hs
        · exact ⟨ht', hs⟩
    · obtain ⟨hnd, hmem⟩ := ih (x :: seen)
      constructor
      · rw [List.nodup_cons]
        refine ⟨?_, hnd⟩
        intro hmm
        exact ((hmem x).mp hmm).2 (List.mem_cons_self _ _)
      · intro t
        rw [List.mem_cons, hmem t]
        constructor
        · rintro (rfl | ⟨ht, hs⟩)
          · exact ⟨List.mem_cons_self _ _, hx⟩
          · exact ⟨List.mem_cons_of_mem _ ht,
              fun hts => hs (List.mem_cons_of_mem _ hts)⟩
        · rintro ⟨ht, hs⟩
          rcases List.mem_cons.mp ht with rfl | ht'
          · exact Or.inl rfl
          · by_cases hteq : t = x
            · exact Or.inl hteq
            · refine Or.inr ⟨ht', ?_⟩
              intro hmm
              rcases List.mem_cons.mp hmm with h | h
              · exact hteq h
              · exact hs h

theorem trimChars_not_all_wsp {s : List Char} (h : trimChars s ≠ []) :
    (trimChars s).all wsp = false := by
  have hne : (s.dropWhile wsp).reverse.dropWhile wsp ≠ [] := by
    intro hc
    apply h
    simp [trimChars, hc]
  have hhead := List.head_dropWhile_not wsp (s.dropWhile wsp).reverse hne
  rw [List.all_eq_false]
  refine ⟨((s.dropWhile wsp).reverse.dropWhile wsp).head hne, ?_, by simp [hhead]⟩
  rw [trimChars, List.mem_reverse]
  exact List.head_mem hne

theorem parseTags_mem (text : List Char) (t : List Char) :
    t ∈ parseTags text ↔
      t ∈ ((splitSep ',' text).map trimChars).filter (fun u => !u.isEmpty) := by
  rw [parseTags,
    (dedupKeepFirst_nodup_mem
      (((splitSep ',' text).map trimChars).filter (fun u => !u.isEmpty)) []).2 t]
  simp

end Frontend

/-- A concrete tool record used by several concrete instantiations below. -/
def toolA : Tool :=
  ⟨1, "a".data, [], [], "x".data, [], 5⟩

/-- A raw request with every parameter absent (all defaults apply). -/
def rawW : RawQuery :=
  ⟨none, none, none, none, none, none, none, none⟩

/-- The page produced by the default request over `[toolA]`. -/
def pageW : Page :=
  ⟨[toolA], 1, 20, 0⟩

/-- C1: for every query request whose sort string repeats a field across its
comma-separated tokens, the query operation rejects the whole request with a
single client error (HTTP 422); it never applies a deduplicated or otherwise
repaired version of the spec. -/
theorem duplicate_sort_field_rejected
    (s : List Char) (hdup : ¬ (tokenFieldNames s).Nodup)
    (c tg q : Option (List Char)) (l o : Option Int)
    (sb sd : Option (List Char)) (tools : List Tool) :
    ∃ e, handleQuery ⟨c, tg, q, l, o, some s, sb, sd⟩ tools = .error e ∧
      httpStatus e = 422 := by
  have hsort : ∃ e, parseSort s = .error e := by
    cases hp : parseTokens (splitSep ',' s) with
    | error e => exact ⟨e, parseSort_error_of_parseTokens hp⟩
    | ok spec =>
      have hnd : ¬ (spec.map Prod.fst).Nodup := by
        intro hnodup
        apply hdup
        rw [tokenFieldNames, parseTokens_fieldNames _ _ hp]
        have hmm : spec.map (fun p => fieldName p.1) =
            (spec.map Prod.fst).map fieldName := by
          rw [List.map_map]
          rfl
        rw [hmm]
        exact hnodup.map fieldName_inj
      exact ⟨.duplicateSortField, by rw [parseSort_ok_shape hp, if_pos hnd]⟩
  obtain ⟨e, he⟩ := hsort
  exact ⟨e, handleQuery_sort_error he, rfl⟩

/-- Witness for C1 at the spec's §8 example `sort=name:asc,name:desc`. -/
theorem duplicate_sort_field_rejected_witness :
    ∃ e, handleQuery ⟨none, none, none, none, none,
      some "name:asc,name:desc".data, none, none⟩ [] = .error e ∧
      httpStatus e = 422 :=
  duplicate_sort_field_rejected "name:asc,name:desc".data (by decide)
    none none none none none none none []

/-- C2: a sort token whose direction part is not exactly `asc` or `desc`
makes the query operation fail with a client error; the direction is never
silently defaulted or coerced inside a token, and the request is never
served under the default ordering instead. -/
theorem invalid_direction_rejected
    (s tok f d : List Char)
    (htok : tok ∈ splitSep ',' s)
    (hshape : splitSep ':' tok = [f, d])
    (hasc : d ≠ "asc".data) (hdesc : d ≠ "desc".data)
    (c tg q : Option (List Char)) (l o : Option Int)
    (sb sd : Option (List Char)) (tools : List Tool) :
    ∃ e, handleQuery ⟨c, tg, q, l, o, some s, sb, sd⟩ tools = .error e ∧
      httpStatus e = 422 := by
  have htokerr : ∃ e₀, parseToken tok = .error e₀ := by
    cases hf : parseField f with
    | none => exact ⟨.invalidSortField f, by simp [parseToken, hshape, hf]⟩
    | some F =>
      have hd : parseDir d = none := by
        unfold parseDir
        rw [if_neg hasc, if_neg hdesc]
      exact ⟨.invalidSortDir d, by simp [parseToken, hshape, hf, hd]⟩
  obtain ⟨e₀, he₀⟩ := htokerr
  obtain ⟨e, he⟩ := parseTokens_error_of_mem htok he₀
  exact ⟨e, handleQuery_sort_error (parseSort_error_of_parseTokens he), rfl⟩

/-- Witness for C2 at `sort=name:up`. -/
theorem invalid_direction_rejected_witness :
    ∃ e, handleQuery ⟨none, none, none, none, none,
      some "name:up".data, none, none⟩ [] = .error e ∧
      httpStatus e = 422 :=
  invalid_direction_rejected "name:up".data "name:up".data
    "name".data "up".data (by decide) (by decide) (by decide) (by decide)
    none none none none none none none []

/-- C3: a sort string with more than 3 comma-separated tokens makes the
query operation fail with HTTP 422; the spec is never truncated to its
first 3 tokens. -/
theorem too_many_sort_fields_rejected
    (s : List Char) (hlen : 3 < (splitSep ',' s).length)
    (c tg q : Option (List Char)) (l o : Option Int)
    (sb sd : Option (List Char)) (tools : List Tool) :
    ∃ e, handleQuery ⟨c, tg, q, l, o, some s, sb, sd⟩ tools = .error e ∧
      httpStatus e = 422 := by
  have hsort : ∃ e, parseSort s = .error e := by
    cases hp : parseTokens (splitSep ',' s) with
    | error e => exact ⟨e, parseSort_error_of_parseTokens hp⟩
    | ok spec =>
      have hl : 3 < spec.length := by
        rw [parseTokens_length _ _ hp]
        exact hlen
      by_cases h1 : ¬ (spec.map Prod.fst).Nodup
      · exact ⟨.duplicateSortField, by rw [parseSort_ok_shape hp, if_pos h1]⟩
      · exact ⟨.tooManySortFields,
          by rw [parseSort_ok_shape hp, if_neg h1, if_pos hl]⟩
  obtain ⟨e, he⟩ := hsort
  exact ⟨e, handleQuery_sort_error he, rfl⟩

/-- Witness for C3 at the spec's §8 four-field example. -/
theorem too_many_sort_fields_rejected_witness :
    ∃ e, handleQuery ⟨none, none, none, none, none,
      some "name:asc,category:asc,created_at:desc,name:desc".data,
      none, none⟩ [] = .error e ∧ httpStatus e = 422 :=
  too_many_sort_fields_rejected
    "name:asc,category:asc,created_at:desc,name:desc".data (by decide)
    none none none none none none none []

/-- C4: every valid request yields a page with `items.length ≤ limit` and
`total ≥ items.length`, where `total` is the number of tools matching the
ANDed filters before limit/offset are applied — hence the same for every
limit/offset over the same filters, sort and data set. -/
theorem pagination_contract
    (raw : RawQuery) (tools : List Tool) (page : Page)
    (h : handleQuery raw tools = .ok page) :
    page.items.length ≤ page.limit ∧
    page.items.length ≤ page.total ∧
    page.total = (tools.filter (toolMatches raw.category raw.tag raw.q)).length ∧
    (∀ (l o : Option Int) (page' : Page),
      handleQuery ⟨raw.category, raw.tag, raw.q, l, o,
        raw.sort, raw.sort_by, raw.sort_dir⟩ tools = .ok page' →
      page'.total = page.total) := by
  obtain ⟨spec, l, o, hs, hl, ho, rfl⟩ := handleQuery_ok h
  refine ⟨?_, ?_, rfl, ?_⟩
  · simp only [engineQuery, List.length_take]
    exact min_le_left _ _
  · simp only [engineQuery, List.length_take, List.length_drop, length_sortLe]
    exact le_trans (min_le_right _ _) (Nat.sub_le _ _)
  · intro l' o' page' h'
    obtain ⟨spec2, l2, o2, hs2, hl2, ho2, rfl⟩ := handleQuery_ok h'
    rfl

/-- Witness for C4 at the default request over one tool. -/
theorem pagination_contract_witness :
    pageW.items.length ≤ pageW.limit ∧
    pageW.items.length ≤ pageW.total ∧
    pageW.total = ([toolA].filter (toolMatches rawW.category rawW.tag rawW.q)).length ∧
    (∀ (l o : Option Int) (page' : Page),
      handleQuery ⟨rawW.category, rawW.tag, rawW.q, l, o,
        rawW.sort, rawW.sort_by, rawW.sort_dir⟩ [toolA] = .ok page' →
      page'.total = pageW.total) :=
  pagination_contract rawW [toolA] pageW (by rfl)

/-- C5: the item sequence of every engine result is sorted under the
composite comparator (first key, ties by the second, then the third, the
remaining ties by the deterministic id tiebreaker; `asc` keys non-decreasing
and `desc` keys non-increasing along the lexicographic comparison), and the
spec's §8 example `sort=category:asc,name:asc` over
[{b,x},{a,x},{a,y}] returns [{a,x},{b,x},{a,y}]. -/
theorem composite_sort_order :
    (∀ (req : QueryRequest) (tools : List Tool),
      (engineQuery req tools).items.Pairwise
        (fun a b => specCmp req.spec a b ≠ .gt)) ∧
    (handleQuery ⟨none, none, none, none, none,
        some "category:asc,name:asc".data, none, none⟩
        [⟨1, "b".data, [], [], "x".data, [], 0⟩,
         ⟨2, "a".data, [], [], "x".data, [], 0⟩,
         ⟨3, "a".data, [], [], "y".data, [], 0⟩]).map Page.items =
      .ok [⟨2, "a".data, [], [], "x".data, [], 0⟩,
           ⟨1, "b".data, [], [], "x".data, [], 0⟩,
           ⟨3, "a".data, [], [], "y".data, [], 0⟩] :=
  ⟨sorted_engine_items, by rfl⟩

/-- Witness for C5: the general sortedness conjunct instantiated at the §8
example request. -/
theorem composite_sort_order_witness :
    (engineQuery ⟨none, none, none, 20, 0,
        [(.category, .asc), (.name, .asc)]⟩
      [⟨1, "b".data, [], [], "x".data, [], 0⟩,
       ⟨2, "a".data, [], [], "x".data, [], 0⟩,
       ⟨3, "a".data, [], [], "y".data, [], 0⟩]).items.Pairwise
      (fun a b => specCmp [(.category, .asc), (.name, .asc)] a b ≠ .gt) :=
  composite_sort_order.1
    ⟨none, none, none, 20, 0, [(.category, .asc), (.name, .asc)]⟩
    [⟨1, "b".data, [], [], "x".data, [], 0⟩,
     ⟨2, "a".data, [], [], "x".data, [], 0⟩,
     ⟨3, "a".data, [], [], "y".data, [], 0⟩]

/-- C6: on any valid request, an offset at least the number of matching
tools is not an error: the request still succeeds and returns `items = []`
together with the correct `total`. -/
theorem offset_beyond_total_empty
    (raw : RawQuery) (tools : List Tool) (page : Page) (o : Nat)
    (h : handleQuery raw tools = .ok page) (ho : page.total ≤ o) :
    ∃ page', handleQuery ⟨raw.category, raw.tag, raw.q, raw.limit,
        some (o : Int), raw.sort, raw.sort_by, raw.sort_dir⟩ tools = .ok page' ∧
      page'.items = [] ∧ page'.total = page.total := by
  obtain ⟨spec, l, o₀, hs, hl, ho₀, rfl⟩ := handleQuery_ok h
  refine ⟨engineQuery ⟨raw.category, raw.tag, raw.q, l, o, spec⟩ tools, ?_, ?_, rfl⟩
  · have hoo : resolveOffset (some (o : Int)) = .ok o := by
      have h0 : ¬ ((o : Int) < 0) := by omega
      simp only [resolveOffset]
      rw [if_neg h0, Int.toNat_natCast]
    simp only [handleQuery, hs, resolvePagination_ok_of hl hoo]
  · simp only [engineQuery]
    rw [List.drop_eq_nil_of_le, List.take_nil]
    rw [length_sortLe]
    exact ho

/-- Witness for C6 at the default request over one tool and offset 5. -/
theorem offset_beyond_total_empty_witness :
    ∃ page', handleQuery ⟨rawW.category, rawW.tag, rawW.q, rawW.limit,
        some ((5 : Nat) : Int), rawW.sort, rawW.sort_by, rawW.sort_dir⟩
        [toolA] = .ok page' ∧
      page'.items = [] ∧ page'.total = pageW.total :=
  offset_beyond_total_empty rawW [toolA] pageW 5 (by rfl) (by decide)

/-- C7: a legacy request `sort_by=f&sort_dir=d` (f in the allowed set, d a
valid direction) is translated into the single-element SortSpec [(f, d)] and
returns exactly the same page — hence the same ordering — as the equivalent
request `sort=f:d` against the same data set. -/
theorem legacy_sort_equivalence
    (f d : List Char)
    (hf : f ∈ ["name".data, "category".data, "created_at".data])
    (hd : d ∈ ["asc".data, "desc".data])
    (c tg q : Option (List Char)) (l o : Option Int) (tools : List Tool) :
    (∃ F D, parseField f = some F ∧ parseDir d = some D ∧
      resolveSort none (some f) (some d) = .ok [(F, D)]) ∧
    handleQuery ⟨c, tg, q, l, o, none, some f, some d⟩ tools =
      handleQuery ⟨c, tg, q, l, o, some (f ++ ':' :: d), none, none⟩ tools := by
  simp only [List.mem_cons, List.not_mem_nil, or_false] at hf hd
  rcases hf with rfl | rfl | rfl <;> rcases hd with rfl | rfl <;>
    exact ⟨⟨_, _, rfl, rfl, rfl⟩, rfl⟩

/-- Witness for C7 at the spec's §8 example `sort_by=name&sort_dir=desc`. -/
theorem legacy_sort_equivalence_witness :
    (∃ F D, parseField "name".data = some F ∧ parseDir "desc".data = some D ∧
      resolveSort none (some "name".data) (some "desc".data) = .ok [(F, D)]) ∧
    handleQuery ⟨none, none, none, none, none, none,
        some "name".data, some "desc".data⟩ [toolA] =
      handleQuery ⟨none, none, none, none, none,
        some ("name".data ++ ':' :: "desc".data), none, none⟩ [toolA] :=
  legacy_sort_equivalence "name".data "desc".data (by decide) (by decide)
    none none none none none [toolA]

/-- C8: every frontend operation that produces or mutates the sort spec —
preset selection, column-header toggle, the primary/secondary/tertiary
builder, and badge drag-reorder — yields a spec with at most 3 entries, no
repeated field, and every direction `asc` or `desc`. -/
theorem sort_ops_preserve_invariant :
    (∀ key, Frontend.specInvariant (Frontend.setPreset key)) ∧
    (∀ field prev, Frontend.specInvariant (Frontend.toggleSort field prev)) ∧
    (∀ pBy pDir sBy sDir tBy tDir,
      Frontend.specInvariant (Frontend.setSortBuilder pBy pDir sBy sDir tBy tDir)) ∧
    (∀ prev dragIndex i, Frontend.specInvariant prev →
      Frontend.specInvariant (Frontend.onBadgeDrop prev dragIndex i)) := by
  refine ⟨?_, ?_, ?_, ?_⟩
  · intro key
    exact Frontend.normalizeSpec_invariant _
  · intro field prev
    unfold Frontend.toggleSort
    cases prev.findIdx? (fun s => s.by_ == field) with
    | none => exact Frontend.normalizeSpec_invariant _
    | some n =>
      cases n with
      | zero => cases prev <;> exact Frontend.normalizeSpec_invariant _
      | succ i => exact Frontend.normalizeSpec_invariant _
  · intro pBy pDir sBy sDir tBy tDir
    exact Frontend.normalizeSpec_invariant _
  · intro prev dragIndex i hprev
    cases dragIndex with
    | none => exact hprev
    | some dd =>
      show Frontend.specInvariant
        (if dd = i then prev else Frontend.normalizeSpec (Frontend.reorder prev dd i))
      by_cases hdi : dd = i
      · rw [if_pos hdi]
        exact hprev
      · rw [if_neg hdi]
        exact Frontend.normalizeSpec_invariant _

/-- Witness for C8: each operation at a concrete input, the drag-reorder one
with its invariant hypothesis discharged. -/
theorem sort_ops_preserve_invariant_witness :
    Frontend.specInvariant (Frontend.setPreset "cat_name".data) ∧
    Frontend.specInvariant (Frontend.toggleSort "name".data []) ∧
    Frontend.specInvariant (Frontend.setSortBuilder "name".data []
      "category".data [] "created_at".data []) ∧
    Frontend.specInvariant (Frontend.onBadgeDrop
      [⟨"name".data, "asc".data⟩, ⟨"category".data, "desc".data⟩]
      (some 0) 1) :=
  ⟨sort_ops_preserve_invariant.1 _,
   sort_ops_preserve_invariant.2.1 _ _,
   sort_ops_preserve_invariant.2.2.1 _ _ _ _ _ _,
   sort_ops_preserve_invariant.2.2.2 _ _ _
     ⟨by decide, by decide, by decide⟩⟩

/-- C9: for every input string, `parseTags` returns a list with no empty or
whitespace-only entries and no duplicates: it splits on commas, trims each
entry, drops empty results, and keeps only the first occurrence of each
distinct tag (its members are exactly the trimmed non-empty split parts). -/
theorem parseTags_clean (text : List Char) :
    (Frontend.parseTags text).Nodup ∧
    (∀ t ∈ Frontend.parseTags text, t.all Frontend.wsp = false) ∧
    (∀ t, t ∈ Frontend.parseTags text ↔
      t ∈ ((splitSep ',' text).map Frontend.trimChars).filter
        (fun u => !u.isEmpty)) := by
  refine ⟨(Frontend.dedupKeepFirst_nodup_mem _ []).1, ?_,
    Frontend.parseTags_mem text⟩
  intro t ht
  rw [Frontend.parseTags_mem text t, List.mem_filter] at ht
  obtain ⟨hmap, hne⟩ := ht
  obtain ⟨u, hu, rfl⟩ := List.mem_map.mp hmap
  apply Frontend.trimChars_not_all_wsp
  intro hc
  rw [hc] at hne
  simp at hne

/-- Witness for C9 at a messy concrete input, the membership hypothesis
discharged at the tag "a". -/
theorem parseTags_clean_witness :
    (Frontend.parseTags "a, b,,a ,c".data).Nodup ∧
    ("a".data).all Frontend.wsp = false ∧
    ("a".data ∈ Frontend.parseTags "a, b,,a ,c".data ↔
      "a".data ∈ ((splitSep ',' "a, b,,a ,c".data).map Frontend.trimChars).filter
        (fun u => !u.isEmpty)) :=
  ⟨(parseTags_clean "a, b,,a ,c".data).1,
   (parseTags_clean "a, b,,a ,c".data).2.1 "a".data (by decide),
   (parseTags_clean "a, b,,a ,c".data).2.2 "a".data⟩

/-- C10: `normalizeSpec` is idempotent, and any spec already satisfying the
SortSpec invariant of the data model (at most 3 entries, unique fields drawn
from the sortable whitelist, directions in {asc, desc}) is returned
unchanged. -/
theorem normalizeSpec_idempotent :
    (∀ s, Frontend.normalizeSpec (Frontend.normalizeSpec s) =
      Frontend.normalizeSpec s) ∧
    (∀ s, Frontend.SortSpecWF s → Frontend.normalizeSpec s = s) := by
  have hfix : ∀ s, Frontend.SortSpecWF s → Frontend.normalizeSpec s = s := by
    rintro s ⟨h1, h2, h3⟩
    apply Frontend.normalizeSpec_fixed s h1 h2
    intro e he
    obtain ⟨hb, hd⟩ := h3 e he
    refine ⟨?_, hd⟩
    intro hc
    rw [hc] at hb
    revert hb
    decide
  refine ⟨?_, hfix⟩
  intro s
  apply Frontend.normalizeSpec_fixed
  · exact (Frontend.normalizeSpec_invariant s).1
  · exact (Frontend.normalizeSpec_invariant s).2.1
  · intro e he
    exact ⟨(Frontend.cleanSpec_entries s [] e (List.mem_of_mem_take he)).1,
      (Frontend.normalizeSpec_invariant s).2.2 e he⟩

/-- Witness for C10: idempotence at a messy spec and the fixed point at a
well-formed spec. -/
theorem normalizeSpec_idempotent_witness :
    Frontend.normalizeSpec (Frontend.normalizeSpec
        [⟨"name".data, "up".data⟩, ⟨"name".data, "asc".data⟩,
         ⟨[], "asc".data⟩, ⟨"category".data, "desc".data⟩,
         ⟨"created_at".data, "desc".data⟩]) =
      Frontend.normalizeSpec
        [⟨"name".data, "up".data⟩, ⟨"name".data, "asc".data⟩,
         ⟨[], "asc".data⟩, ⟨"category".data, "desc".data⟩,
         ⟨"created_at".data, "desc".data⟩] ∧
    Frontend.normalizeSpec
        [⟨"category".data, "asc".data⟩, ⟨"name".data, "desc".data⟩] =
      [⟨"category".data, "asc".data⟩, ⟨"name".data, "desc".data⟩] :=
  ⟨normalizeSpec_idempotent.1 _,
   normalizeSpec_idempotent.2 _ ⟨by decide, by decide, by decide⟩⟩

end ControlOps
